import Mathlib

/-!
Verification of the fragment span matcher of the compare-page PDF viewer
(`app/compare/page.tsx`).  The matcher maps each highlight target (free text
plus metadata) to the best contiguous range of rendered text fragments.

The embedding models JavaScript strings as `List Char` and follows the source
functions `extractWords`, `wordsMatch`, `findWordInSpans` and the pure core of
`applyHighlights` line by line.  The regex classes `\w` and `\s` of the source
are ASCII classes in JavaScript (no `u` flag), so they are modelled by the
ASCII predicates below; `String.prototype.toLowerCase` is modelled on the
ASCII range (all inputs examined here are ASCII).
-/

/-- ASCII decimal digit, the `0-9` part of the regex class `\w`. -/
def isAsciiDigit (c : Char) : Bool :=
  decide (48 ≤ c.toNat) && decide (c.toNat ≤ 57)

/-- ASCII upper-case letter, the `A-Z` part of the regex class `\w`. -/
def isAsciiUpperCh (c : Char) : Bool :=
  decide (65 ≤ c.toNat) && decide (c.toNat ≤ 90)

/-- ASCII lower-case letter, the `a-z` part of the regex class `\w`. -/
def isAsciiLowerCh (c : Char) : Bool :=
  decide (97 ≤ c.toNat) && decide (c.toNat ≤ 122)

/-- ASCII alphanumeric character (letter or digit). -/
def isAlphanumCh (c : Char) : Bool :=
  isAsciiUpperCh c || isAsciiLowerCh c || isAsciiDigit c

/-- A character of the JavaScript regex class `\w`: `[A-Za-z0-9_]`. -/
def isWordChar (c : Char) : Bool :=
  isAlphanumCh c || c == '_'

/-- A character of the JavaScript regex class `\s` (ASCII part):
space, tab, line feed, carriage return, vertical tab and form feed. -/
def isWsChar (c : Char) : Bool :=
  c == ' ' || c == '\t' || c == '\n' || c == '\r' || c == '\x0b' || c == '\x0c'

/-- `String.prototype.toLowerCase` on the ASCII range: `A-Z` maps to `a-z`,
every other character is unchanged. -/
def toLowerJS (c : Char) : Char :=
  if h : 65 ≤ c.toNat ∧ c.toNat ≤ 90 then
    Char.ofNatAux (c.toNat + 32) (Or.inl (by omega))
  else c

/-- Splitting a character list on runs of whitespace, accumulating the current
token in reverse; models `split(/\s+/)` composed with the later length filter
(the filter discards the empty tokens that the JavaScript split can produce at
the ends, so dropping them here is observationally identical). -/
def splitWsAux : List Char → List Char → List (List Char)
  | [], acc => if acc.isEmpty then [] else [acc.reverse]
  | c :: cs, acc =>
    if isWsChar c then
      if acc.isEmpty then splitWsAux cs [] else acc.reverse :: splitWsAux cs []
    else splitWsAux cs (c :: acc)

/-- Tokens of a character list separated by whitespace runs. -/
def splitWs (cs : List Char) : List (List Char) :=
  splitWsAux cs []

/-- Source `extractWords`: lower-case the text, replace every character that
is neither `\w` nor `\s` by a space, split on whitespace runs, and keep only
tokens longer than 2 characters. -/
def extractWords (text : List Char) : List (List Char) :=
  ((splitWs ((text.map toLowerJS).map
      (fun c => if isWordChar c || isWsChar c then c else ' '))).filter
    (fun w => decide (w.length > 2)))

/-- Model of `String.prototype.includes`: `includes s pat` is true when `pat`
occurs as a contiguous substring of `s`. -/
def includes : List Char → List Char → Bool
  | [], pat => pat.isEmpty
  | s@(_ :: rest), pat => pat.isPrefixOf s || includes rest pat

/-- Source `wordsMatch`: bidirectional substring containment between two
normalized words (`word1.includes(word2) || word2.includes(word1)`). -/
def wordsMatch (word1 word2 : List Char) : Bool :=
  includes word1 word2 || includes word2 word1

/-- One entry of the `spanData` array of `applyHighlights`: a fragment's
global index together with its extracted word list.  The DOM element held by
the source record is presentation-only and not part of the matching state. -/
structure SpanData where
  index : Nat
  words : List (List Char)
deriving DecidableEq

/-- Source `findWordInSpans`: collect the indices of the spans whose word
list loose-matches `targetWord`, skipping spans outside the
`(afterIndex, beforeIndex)` window.  The source defaults are `afterIndex = -1`
and `beforeIndex = Infinity`; the latter is modelled by `none`. -/
def findWordInSpans (targetWord : List Char) (spanData : List SpanData)
    (afterIndex : Int) (beforeIndex : Option Nat) : List Nat :=
  spanData.filterMap (fun span =>
    if decide ((span.index : Int) ≤ afterIndex)
        || (beforeIndex.any (fun b => decide (b ≤ span.index))) then none
    else if span.words.any (fun w => wordsMatch w targetWord) then some span.index
    else none)

/-- The `HighlightData` record of the source: page number, target text and
opaque metadata (id, summary, optional title). -/
structure HighlightData where
  page : Int
  text : List Char
  summary : List Char
  id : List Char
  title : Option (List Char)
deriving DecidableEq

/-- The fixed stop-word list (`commonWords`) of `applyHighlights`. -/
def commonWords : List (List Char) :=
  ["the".toList, "and".toList, "for".toList, "with".toList, "this".toList,
   "that".toList, "are".toList, "was".toList, "will".toList, "from".toList,
   "have".toList, "has".toList]

/-- The unique significant words of a target:
`[...new Set(highlightWords)].filter(w => !commonWords.has(w))`.
`eraseDups` keeps first occurrences, as iteration over a JavaScript `Set`
does. -/
def uniqueWordsOf (highlightWords : List (List Char)) : List (List Char) :=
  highlightWords.eraseDups.filter (fun w => !commonWords.elem w)

/-- Span length of a candidate range, `end - start`. -/
def spanLen (c : Nat × Nat) : Nat :=
  c.2 - c.1

/-- The comparator `(a, b) => (a.end - a.start) - (b.end - b.start)` orders
candidates by ascending span length. -/
def lenLe (a b : Nat × Nat) : Prop :=
  spanLen a ≤ spanLen b

instance : DecidableRel lenLe :=
  fun a b => inferInstanceAs (Decidable (spanLen a ≤ spanLen b))

instance : IsTotal (Nat × Nat) lenLe :=
  ⟨fun a b => Nat.le_total (spanLen a) (spanLen b)⟩

instance : IsTrans (Nat × Nat) lenLe :=
  ⟨fun _ _ _ h h2 => Nat.le_trans h h2⟩

/-- Step 2 of the matcher: all pairs of a start candidate and an end
candidate with `end > start` and `end - start <= 500`, enumerated in the
source's nested order (outer loop over starts, inner loop over ends). -/
def candidatePairs (startPositions endPositions : List Nat) : List (Nat × Nat) :=
  startPositions.flatMap (fun s =>
    endPositions.filterMap (fun e =>
      if e > s ∧ e - s ≤ 500 then some (s, e) else none))

/-- Normalized words of a target's text. -/
def highlightWordsOf (highlight : HighlightData) : List (List Char) :=
  extractWords highlight.text

/-- Global indices of spans loose-matching the target's first word. -/
def startPositionsOf (spanData : List SpanData) (highlight : HighlightData) : List Nat :=
  findWordInSpans ((highlightWordsOf highlight).headD []) spanData (-1) none

/-- Global indices of spans loose-matching the target's last word. -/
def endPositionsOf (spanData : List SpanData) (highlight : HighlightData) : List Nat :=
  findWordInSpans ((highlightWordsOf highlight).getLastD []) spanData (-1) none

/-- The candidate list of a target after `candidates.sort(...)`: JavaScript
`Array.prototype.sort` is specified to be stable, so it is modelled by the
stable `insertionSort` with the span-length comparator. -/
def sortedCandidatesOf (spanData : List SpanData) (highlight : HighlightData) :
    List (Nat × Nat) :=
  List.insertionSort lenLe
    (candidatePairs (startPositionsOf spanData highlight) (endPositionsOf spanData highlight))

/-- The words available at one global index (`spanData[i]?.words`, empty when
the index is out of bounds). -/
def spanWordsAt (spanData : List SpanData) (i : Nat) : List (List Char) :=
  match spanData[i]? with
  | some sd => sd.words
  | none => []

/-- The union (as a list, membership-only as for the source's `Set`) of the
word lists of the spans with index in the inclusive range
`[cand.start, cand.end]`. -/
def rangeWordsOf (spanData : List SpanData) (cand : Nat × Nat) : List (List Char) :=
  (List.range' cand.1 (cand.2 - cand.1 + 1)).flatMap (fun i => spanWordsAt spanData i)

/-- Step 3's filter body: every unique significant word of the target must
loose-match some word occurring in the candidate's range. -/
def coversAllWords (spanData : List SpanData) (uniqueWords : List (List Char))
    (cand : Nat × Nat) : Bool :=
  uniqueWords.all (fun word => (rangeWordsOf spanData cand).any (fun rw => wordsMatch word rw))

/-- The candidates surviving the word-coverage filter, in sorted order. -/
def survivorsOf (spanData : List SpanData) (highlight : HighlightData) :
    List (Nat × Nat) :=
  (sortedCandidatesOf spanData highlight).filter
    (coversAllWords spanData (uniqueWordsOf (highlightWordsOf highlight)))

/-- The pure matching core of `applyHighlights` for one target: the early
returns for too few words, empty candidate position sets and an empty
candidate list, then the first surviving candidate (`candidates[0]`). -/
def matchHighlight (spanData : List SpanData) (highlight : HighlightData) :
    Option (Nat × Nat) :=
  if (highlightWordsOf highlight).length < 2 then none
  else if (startPositionsOf spanData highlight).isEmpty
      || (endPositionsOf spanData highlight).isEmpty then none
  else if (sortedCandidatesOf spanData highlight).isEmpty then none
  else (survivorsOf spanData highlight).head?

/-- The `spanData` array built by `applyHighlights` from the flat list of
fragment texts: each fragment is paired with its global index and its
extracted words. -/
def buildSpanData (fragments : List (List Char)) : List SpanData :=
  fragments.enum.map (fun p => { index := p.1, words := extractWords p.2 })

/-- The matcher over a whole pass: the early return when no span is rendered,
otherwise one result (target id, optional range) per highlight target. -/
def computeMatches (fragments : List (List Char)) (highlights : List HighlightData) :
    List (List Char × Option (Nat × Nat)) :=
  if fragments.isEmpty then []
  else highlights.map (fun h => (h.id, matchHighlight (buildSpanData fragments) h))

/-- The highlight state attached to a fragment span by `applyHighlights`:
the `data-highlight-id`, `data-highlight-summary` and optional
`data-highlight-title` attributes (together with the styling and the
click/hover handlers, which carry the same data). -/
structure HighlightTag where
  id : List Char
  summary : List Char
  title : Option (List Char)
deriving DecidableEq

/-- The clearing loop at the start of `applyHighlights`: every span of every
rendered page has its highlight state removed. -/
def clearTags (tags : List (Option HighlightTag)) : List (Option HighlightTag) :=
  tags.map (fun _ => none)

/-- The tagging loop for one matched range: every span with index in
`[s, e]` receives the target's tag, all other spans are untouched. -/
def setRangeTag (tags : List (Option HighlightTag)) (s e : Nat)
    (tag : HighlightTag) : List (Option HighlightTag) :=
  tags.enum.map (fun p => if s ≤ p.1 ∧ p.1 ≤ e then some tag else p.2)

/-- One full highlight-application pass over the DOM state: clear the
highlight state of every span, return early when no span is rendered, and
otherwise tag the matched range of each target in order
(last-applied-wins for overlapping ranges, as in the source). -/
def applyHighlightsPass (fragments : List (List Char)) (highlights : List HighlightData)
    (prevTags : List (Option HighlightTag)) : List (Option HighlightTag) :=
  if fragments.isEmpty then clearTags prevTags
  else
    highlights.foldl (fun tags h =>
      match matchHighlight (buildSpanData fragments) h with
      | none => tags
      | some r => setRangeTag tags r.1 r.2 { id := h.id, summary := h.summary, title := h.title })
      (clearTags prevTags)

/-- Lexicographic strict order on candidate ranges: earlier start, or equal
start and earlier end.  This is the enumeration order of the candidate list
when the start and end position lists are strictly increasing. -/
def lexLt (a b : Nat × Nat) : Prop :=
  a.1 < b.1 ∨ (a.1 = b.1 ∧ a.2 < b.2)

/-- A stale highlight tag used as the pre-existing DOM state of a pass. -/
def tagOld : HighlightTag :=
  { id := "old".toList, summary := [], title := none }

/-- A pre-existing DOM tag state in which every span is tagged. -/
def prevTagsOld : List (Option HighlightTag) :=
  [some tagOld, some tagOld, some tagOld, some tagOld]

/-- The spec's four-step reference normalization, for comparison with
`extractWords`: lower-case, replace every non-alphanumeric character with
whitespace, split on whitespace runs, discard tokens shorter than 3. -/
def specExtractWords (text : List Char) : List (List Char) :=
  ((splitWs ((text.map toLowerJS).map
      (fun c => if isAlphanumCh c then c else ' '))).filter
    (fun w => decide (w.length > 2)))

/-- The reference normalization amended to the regex class `\w`: replace
every character that is neither alphanumeric nor an underscore with
whitespace (the only change the source forces on the spec's reference). -/
def specExtractWordsW (text : List Char) : List (List Char) :=
  ((splitWs ((text.map toLowerJS).map
      (fun c => if isWordChar c then c else ' '))).filter
    (fun w => decide (w.length > 2)))

/-- Characters interchangeable for whitespace splitting: equal, or both
whitespace. -/
def charRel (a b : Char) : Prop :=
  a = b ∨ (isWsChar a = true ∧ isWsChar b = true)

/-- Fragments used to exhibit the stop-word behaviour of the matcher. -/
def fragsStop : List (List Char) := ["weather".toList, "sandwich".toList]

/-- A target whose normalized words are both stop words. -/
def targetStop : HighlightData :=
  { page := 1, text := "the and".toList, summary := [], id := "t1".toList, title := none }

/-- A target with a single normalized word. -/
def targetSolo : HighlightData :=
  { page := 1, text := "data".toList, summary := [], id := "t2".toList, title := none }

/-- Fragments producing two surviving candidates of equal smallest span. -/
def fragsTie : List (List Char) :=
  ["alpha".toList, "beta".toList, "alpha".toList, "beta".toList]

/-- The target matched against `fragsTie`. -/
def targetTie : HighlightData :=
  { page := 1, text := "alpha beta".toList, summary := "sum".toList, id := "t3".toList,
    title := none }

/-- A single fragment whose text contains an entire target verbatim. -/
def fragSingle : List (List Char) := ["privacy requires consent".toList]

/-- A target fully contained in the single fragment of `fragSingle`. -/
def targetSingle : HighlightData :=
  { page := 2, text := "privacy requires".toList, summary := [], id := "t4".toList,
    title := none }

theorem mem_candidatePairs {sp ep : List Nat} {c : Nat × Nat} :
    c ∈ candidatePairs sp ep ↔ c.1 ∈ sp ∧ c.2 ∈ ep ∧ c.1 < c.2 ∧ c.2 - c.1 ≤ 500 := by
  obtain ⟨s0, e0⟩ := c
  unfold candidatePairs
  simp only [List.mem_flatMap, List.mem_filterMap]
  constructor
  · rintro ⟨s, hs, e, he, hif⟩
    by_cases hc : e > s ∧ e - s ≤ 500
    · rw [if_pos hc] at hif
      have h2 := Option.some.inj hif
      rw [Prod.mk.injEq] at h2
      obtain ⟨h3, h4⟩ := h2
      subst h3; subst h4
      exact ⟨hs, he, hc.1, hc.2⟩
    · rw [if_neg hc] at hif
      exact Option.noConfusion hif
  · rintro ⟨h1, h2, h3, h4⟩
    exact ⟨s0, h1, e0, h2, by rw [if_pos ⟨h3, h4⟩]⟩

theorem head?_survivors_of_match {spanData : List SpanData} {h : HighlightData}
    {r : Nat × Nat} (hm : matchHighlight spanData h = some r) :
    (survivorsOf spanData h).head? = some r := by
  unfold matchHighlight at hm
  split_ifs at hm with h1 h2 h3
  exact hm

theorem mem_of_head?_eq_some {α : Type} {l : List α} {a : α} (h : l.head? = some a) :
    a ∈ l := by
  cases l with
  | nil => exact Option.noConfusion h
  | cons x t =>
    simp only [List.head?] at h
    obtain rfl : x = a := Option.some.inj h
    exact List.mem_cons_self x t

theorem mem_survivors_of_match {spanData : List SpanData} {h : HighlightData}
    {r : Nat × Nat} (hm : matchHighlight spanData h = some r) :
    r ∈ survivorsOf spanData h :=
  mem_of_head?_eq_some (head?_survivors_of_match hm)

theorem mem_survivors_iff {sd : List SpanData} {h : HighlightData} {c : Nat × Nat} :
    c ∈ survivorsOf sd h ↔
      c ∈ candidatePairs (startPositionsOf sd h) (endPositionsOf sd h) ∧
        coversAllWords sd (uniqueWordsOf (highlightWordsOf h)) c = true := by
  unfold survivorsOf sortedCandidatesOf
  rw [List.mem_filter, List.mem_insertionSort]

theorem matchHighlight_mem_cands {sd : List SpanData} {h : HighlightData} {r : Nat × Nat}
    (hm : matchHighlight sd h = some r) :
    r.1 ∈ startPositionsOf sd h ∧ r.2 ∈ endPositionsOf sd h ∧ r.1 < r.2 ∧ r.2 - r.1 ≤ 500 :=
  mem_candidatePairs.mp (mem_survivors_iff.mp (mem_survivors_of_match hm)).1

/-- C5: every matched range `{start, end}` emitted by the matcher satisfies
`start <= end` and `end - start <= 500`; no emitted range violates the
500-fragment window cap or has its end before its start. -/
theorem C5_theorem (fragments : List (List Char)) (highlights : List HighlightData)
    (tid : List Char) (r : Nat × Nat)
    (hmem : (tid, some r) ∈ computeMatches fragments highlights) :
    r.1 ≤ r.2 ∧ r.2 - r.1 ≤ 500 := by
  unfold computeMatches at hmem
  split_ifs at hmem with hf
  · exact absurd hmem (List.not_mem_nil _)
  · rw [List.mem_map] at hmem
    obtain ⟨h, hh, heq⟩ := hmem
    have hm : matchHighlight (buildSpanData fragments) h = some r := by
      have h2 := congrArg Prod.snd heq
      simpa using h2
    have hb := matchHighlight_mem_cands hm
    exact ⟨Nat.le_of_lt hb.2.2.1, hb.2.2.2⟩

theorem C5_witness :
    (("t3".toList, some ((0, 1) : Nat × Nat)) ∈ computeMatches fragsTie [targetTie]) ∧
      (0 ≤ 1 ∧ 1 - 0 ≤ 500) :=
  ⟨by decide, C5_theorem fragsTie [targetTie] ("t3".toList) (0, 1) (by decide)⟩

/-- C8: every matched range satisfies the strict inequality `start < end`, so
no matched range consists of a single fragment; a target whose first and last
words occur only in one and the same fragment yields no match even when that
fragment's text contains the entire target text verbatim. -/
theorem C8_theorem :
    (∀ (sd : List SpanData) (h : HighlightData) (r : Nat × Nat),
        matchHighlight sd h = some r → r.1 < r.2) ∧
      matchHighlight (buildSpanData fragSingle) targetSingle = none ∧
      includes ("privacy requires consent".toList) targetSingle.text = true :=
  ⟨fun _ _ _ hm => (matchHighlight_mem_cands hm).2.2.1, by decide, by decide⟩

theorem C8_witness :
    matchHighlight (buildSpanData fragsTie) targetTie = some (0, 1) ∧ 0 < 1 :=
  ⟨by decide, C8_theorem.1 (buildSpanData fragsTie) targetTie (0, 1) (by decide)⟩

/-- C9: the computed range depends only on the target's text and the fragment
snapshot; the target's page, id, summary and title metadata are never read by
the matching computation. -/
theorem C9_theorem (spanData : List SpanData) (text0 : List Char) (p1 p2 : Int)
    (s1 s2 i1 i2 : List Char) (t1 t2 : Option (List Char)) :
    matchHighlight spanData { page := p1, text := text0, summary := s1, id := i1, title := t1 }
      = matchHighlight spanData
          { page := p2, text := text0, summary := s2, id := i2, title := t2 } :=
  rfl

/-- C1 (amended): for every target whose normalized word list (tokens of
length at least 3, stop words included in the count) has fewer than 2
entries, the matcher produces an absent range. -/
theorem C1_theorem (spanData : List SpanData) (highlight : HighlightData)
    (hw : (highlightWordsOf highlight).length < 2) :
    matchHighlight spanData highlight = none := by
  unfold matchHighlight
  rw [if_pos hw]

theorem C1_witness :
    (highlightWordsOf targetSolo).length < 2 ∧
      matchHighlight (buildSpanData fragsStop) targetSolo = none :=
  ⟨by decide, C1_theorem (buildSpanData fragsStop) targetSolo (by decide)⟩

/-- C1 counterexample: the target "the and" has zero significant normalized
words (fewer than 2), yet over the fragments "weather" and "sandwich" the
matcher produces the range `(0, 1)` rather than an absent range. -/
theorem C1_counterexample :
    ((highlightWordsOf targetStop).filter (fun w => !commonWords.elem w)).length < 2 ∧
      matchHighlight (buildSpanData fragsStop) targetStop = some (0, 1) :=
  ⟨by decide, by decide⟩

theorem survivors_sorted (sd : List SpanData) (h : HighlightData) :
    (survivorsOf sd h).Pairwise lenLe := by
  unfold survivorsOf
  exact List.Pairwise.sublist (List.filter_sublist _)
    (List.sorted_insertionSort lenLe _)

/-- C3: for every target that receives a matched range, no other candidate
range (start in the start candidates, end in the end candidates, end after
start, span within the 500 window) that also survives the word-coverage
filter has a strictly smaller span length than the selected range. -/
theorem C3_theorem (sd : List SpanData) (h : HighlightData) (r c : Nat × Nat)
    (hm : matchHighlight sd h = some r)
    (h1 : c.1 ∈ startPositionsOf sd h) (h2 : c.2 ∈ endPositionsOf sd h)
    (h3 : c.1 < c.2) (h4 : c.2 - c.1 ≤ 500)
    (h5 : coversAllWords sd (uniqueWordsOf (highlightWordsOf h)) c = true) :
    ¬ spanLen c < spanLen r := by
  have hcs : c ∈ survivorsOf sd h :=
    mem_survivors_iff.mpr ⟨mem_candidatePairs.mpr ⟨h1, h2, h3, h4⟩, h5⟩
  have hh := head?_survivors_of_match hm
  cases hs : survivorsOf sd h with
  | nil => rw [hs] at hh; exact Option.noConfusion hh
  | cons x t =>
    rw [hs] at hh hcs
    have hx : x = r := Option.some.inj (by simpa using hh)
    have hp := survivors_sorted sd h
    rw [hs] at hp
    rcases List.mem_cons.mp hcs with hcx | hct
    · rw [hcx, hx]
      exact Nat.lt_irrefl _
    · have hle : lenLe x c := (List.pairwise_cons.mp hp).1 c hct
      rw [hx] at hle
      unfold lenLe at hle
      omega

theorem C3_witness :
    matchHighlight (buildSpanData fragsTie) targetTie = some (0, 1) ∧
      ¬ spanLen (0, 3) < spanLen ((0 : Nat), (1 : Nat)) :=
  ⟨by decide,
    C3_theorem (buildSpanData fragsTie) targetTie (0, 1) (0, 3)
      (by decide) (by decide) (by decide) (by decide) (by decide) (by decide)⟩

/-- C4: for every matched range, every unique significant word of the target
loose-matches at least one normalized word drawn from the union of the
fragments' word sets over the inclusive index range `[start, end]`. -/
theorem C4_theorem (sd : List SpanData) (h : HighlightData) (r : Nat × Nat)
    (hm : matchHighlight sd h = some r) :
    ∀ w ∈ uniqueWordsOf (highlightWordsOf h),
      ∃ rw0 ∈ rangeWordsOf sd r, wordsMatch w rw0 = true := by
  have hc := (mem_survivors_iff.mp (mem_survivors_of_match hm)).2
  unfold coversAllWords at hc
  rw [List.all_eq_true] at hc
  intro w hw
  have h2 := hc w hw
  rw [List.any_eq_true] at h2
  obtain ⟨rw0, hrw, hmatch⟩ := h2
  exact ⟨rw0, hrw, hmatch⟩

theorem C4_witness :
    matchHighlight (buildSpanData fragsTie) targetTie = some (0, 1) ∧
      ∀ w ∈ uniqueWordsOf (highlightWordsOf targetTie),
        ∃ rw0 ∈ rangeWordsOf (buildSpanData fragsTie) (0, 1), wordsMatch w rw0 = true :=
  ⟨by decide, C4_theorem (buildSpanData fragsTie) targetTie (0, 1) (by decide)⟩

/-- C7: the matcher is total; an empty fragment list or an empty target list
yields an empty result list, and otherwise every target is processed
independently, an unmatchable target contributing an absent range while the
remaining targets are still processed. -/
theorem C7_theorem (fragments : List (List Char)) (highlights : List HighlightData) :
    computeMatches [] highlights = [] ∧
      computeMatches fragments [] = [] ∧
      (fragments ≠ [] →
        computeMatches fragments highlights =
          highlights.map (fun h => (h.id, matchHighlight (buildSpanData fragments) h))) := by
  refine ⟨rfl, ?_, ?_⟩
  · unfold computeMatches
    split_ifs <;> simp
  · intro hne
    unfold computeMatches
    rw [if_neg (by simpa using hne)]

theorem C7_witness :
    computeMatches fragsTie [targetTie, targetSolo] =
      [targetTie, targetSolo].map
        (fun h => (h.id, matchHighlight (buildSpanData fragsTie) h)) :=
  (C7_theorem fragsTie [targetTie, targetSolo]).2.2 (by decide)

theorem splitWsAux_congr {cs1 cs2 : List Char} (hf : List.Forall₂ charRel cs1 cs2) :
    ∀ acc, splitWsAux cs1 acc = splitWsAux cs2 acc := by
  induction hf with
  | nil => intro acc; rfl
  | cons hr hf2 ih =>
    intro acc
    rename_i a b l1 l2
    simp only [splitWsAux]
    rcases hr with rfl | ⟨hwa, hwb⟩
    · by_cases hw : isWsChar a = true
      · rw [if_pos hw, if_pos hw]
        by_cases hacc : acc.isEmpty = true
        · rw [if_pos hacc, if_pos hacc]
          exact ih []
        · rw [if_neg hacc, if_neg hacc, ih []]
      · rw [if_neg hw, if_neg hw]
        exact ih (a :: acc)
    · rw [if_pos hwa, if_pos hwb]
      by_cases hacc : acc.isEmpty = true
      · rw [if_pos hacc, if_pos hacc]
        exact ih []
      · rw [if_neg hacc, if_neg hacc, ih []]

theorem charRel_replace (d : Char) :
    charRel (if isWordChar d || isWsChar d then d else ' ') (if isWordChar d then d else ' ') := by
  by_cases h1 : isWordChar d = true
  · have hor : (isWordChar d || isWsChar d) = true := by rw [h1]; rfl
    rw [if_pos hor, if_pos h1]
    exact Or.inl rfl
  · by_cases h2 : isWsChar d = true
    · have hor : (isWordChar d || isWsChar d) = true := by rw [h2, Bool.or_true]
      rw [if_pos hor, if_neg h1]
      exact Or.inr ⟨h2, by decide⟩
    · have hor : ¬ (isWordChar d || isWsChar d) = true := by
        intro hc
        rcases Bool.or_eq_true_iff.mp hc with h | h
        · exact h1 h
        · exact h2 h
      rw [if_neg hor, if_neg h1]
      exact Or.inl rfl

theorem replace_forall₂ (text : List Char) :
    List.Forall₂ charRel
      ((text.map toLowerJS).map (fun c => if isWordChar c || isWsChar c then c else ' '))
      ((text.map toLowerJS).map (fun c => if isWordChar c then c else ' ')) := by
  induction text with
  | nil => exact List.Forall₂.nil
  | cons c cs ih =>
    simp only [List.map_cons]
    exact List.Forall₂.cons (charRel_replace (toLowerJS c)) ih

theorem extractWords_eq_specW (text : List Char) :
    extractWords text = specExtractWordsW text := by
  unfold extractWords specExtractWordsW splitWs
  rw [splitWsAux_congr (replace_forall₂ text) []]

theorem toLowerJS_not_upper (c : Char) : isAsciiUpperCh (toLowerJS c) = false := by
  unfold toLowerJS
  split
  · rename_i h
    have ht : (Char.ofNatAux (c.toNat + 32) (Or.inl (by omega))).toNat = c.toNat + 32 := rfl
    unfold isAsciiUpperCh
    rw [ht]
    have h90 : ¬ c.toNat + 32 ≤ 90 := by omega
    rw [decide_eq_false h90, Bool.and_false]
  · rename_i h
    unfold isAsciiUpperCh
    by_cases h65 : 65 ≤ c.toNat
    · have h90 : ¬ c.toNat ≤ 90 := fun hc => h ⟨h65, hc⟩
      rw [decide_eq_false h90, Bool.and_false]
    · rw [decide_eq_false h65, Bool.false_and]

theorem splitWsAux_chars (P : Char → Prop) :
    ∀ (cs acc : List Char), (∀ c ∈ acc, P c) →
      (∀ c ∈ cs, isWsChar c = false → P c) →
      ∀ w ∈ splitWsAux cs acc, ∀ c ∈ w, P c := by
  intro cs
  induction cs with
  | nil =>
    intro acc hacc _ w hw c hc
    unfold splitWsAux at hw
    by_cases h : acc.isEmpty = true
    · rw [if_pos h] at hw
      exact absurd hw (List.not_mem_nil w)
    · rw [if_neg h] at hw
      have hwe : w = acc.reverse := by simpa using hw
      subst hwe
      exact hacc c (List.mem_reverse.mp hc)
  | cons a cs2 ih =>
    intro acc hacc hcs w hw c hc
    unfold splitWsAux at hw
    by_cases hws : isWsChar a = true
    · rw [if_pos hws] at hw
      by_cases hacc2 : acc.isEmpty = true
      · rw [if_pos hacc2] at hw
        exact ih [] (by simp)
          (fun c2 hc2 hnw => hcs c2 (List.mem_cons_of_mem a hc2) hnw) w hw c hc
      · rw [if_neg hacc2] at hw
        rcases List.mem_cons.mp hw with hwe | hw2
        · subst hwe
          exact hacc c (List.mem_reverse.mp hc)
        · exact ih [] (by simp)
            (fun c2 hc2 hnw => hcs c2 (List.mem_cons_of_mem a hc2) hnw) w hw2 c hc
    · rw [if_neg hws] at hw
      refine ih (a :: acc) ?_
        (fun c2 hc2 hnw => hcs c2 (List.mem_cons_of_mem a hc2) hnw) w hw c hc
      intro c2 hc2
      rcases List.mem_cons.mp hc2 with hce | h2
      · subst hce
        have hfalse : isWsChar c2 = false := by
          revert hws
          cases isWsChar c2 <;> simp
        exact hcs c2 (List.mem_cons_self c2 cs2) hfalse
      · exact hacc c2 h2

/-- C2 (amended): `extractWords` equals the spec's reference normalization
with its second step amended to replace every character that is neither
alphanumeric nor an underscore with whitespace (the regex class `\w` keeps
underscores); consequently every surviving token has length at least 3 and
consists only of non-upper-case word characters (lower-case letters, digits
and underscores). -/
theorem C2_theorem (text : List Char) :
    extractWords text = specExtractWordsW text ∧
      ∀ w ∈ extractWords text, 3 ≤ w.length ∧
        ∀ c ∈ w, isWordChar c = true ∧ isAsciiUpperCh c = false := by
  refine ⟨extractWords_eq_specW text, ?_⟩
  intro w hw
  unfold extractWords at hw
  rw [List.mem_filter] at hw
  obtain ⟨hw1, hw2⟩ := hw
  refine ⟨by have h3 := of_decide_eq_true hw2; omega, ?_⟩
  intro c hc
  unfold splitWs at hw1
  refine splitWsAux_chars (fun c => isWordChar c = true ∧ isAsciiUpperCh c = false)
    _ [] (by simp) ?_ w hw1 c hc
  intro c2 hc2 hnws
  rw [List.mem_map] at hc2
  obtain ⟨d, hd, hde⟩ := hc2
  rw [List.mem_map] at hd
  obtain ⟨c0, hc0, hc0e⟩ := hd
  subst hc0e
  subst hde
  by_cases hcase : (isWordChar (toLowerJS c0) || isWsChar (toLowerJS c0)) = true
  · rw [if_pos hcase] at hnws ⊢
    have hword : isWordChar (toLowerJS c0) = true := by
      rcases Bool.or_eq_true_iff.mp hcase with h | h
      · exact h
      · exact absurd h (by simp [hnws])
    exact ⟨hword, toLowerJS_not_upper c0⟩
  · rw [if_neg hcase] at hnws
    exact absurd hnws (by decide)

/-- C2 counterexample: on the input "a_b" the source normalization yields the
token "a_b", which the spec's reference normalization discards, and that
token contains a non-alphanumeric character (the underscore). -/
theorem C2_counterexample :
    extractWords ("a_b".toList) ≠ specExtractWords ("a_b".toList) ∧
      ∃ w ∈ extractWords ("a_b".toList), ∃ c ∈ w, isAlphanumCh c = false :=
  ⟨by decide, by decide⟩

theorem getElem?_clearTags (tags : List (Option HighlightTag)) (i : Nat)
    (hi : i < tags.length) : (clearTags tags)[i]? = some none := by
  unfold clearTags
  rw [List.getElem?_map, List.getElem?_eq_getElem hi]
  rfl

theorem getElem?_setRangeTag_out {tags : List (Option HighlightTag)} {s e i : Nat}
    (hout : i < s ∨ e < i) (tag : HighlightTag) :
    (setRangeTag tags s e tag)[i]? = tags[i]? := by
  unfold setRangeTag
  rw [List.getElem?_map, List.getElem?_enum]
  cases h : tags[i]? with
  | none => rfl
  | some t =>
    have hc : ¬ (s ≤ i ∧ i ≤ e) := by omega
    simp [hc]

theorem applyPass_fold_none (sd : List SpanData) (highlights : List HighlightData) (i : Nat)
    (hout : ∀ h ∈ highlights, ∀ r, matchHighlight sd h = some r → i < r.1 ∨ r.2 < i) :
    ∀ tags : List (Option HighlightTag), tags[i]? = some none →
      (highlights.foldl (fun tags h =>
        match matchHighlight sd h with
        | none => tags
        | some r =>
            setRangeTag tags r.1 r.2 { id := h.id, summary := h.summary, title := h.title })
          tags)[i]? = some none := by
  induction highlights with
  | nil =>
    intro tags ht
    simpa using ht
  | cons h hs ih =>
    intro tags ht
    rw [List.foldl_cons]
    refine ih (fun h2 hh2 => hout h2 (List.mem_cons_of_mem h hh2)) _ ?_
    cases hm : matchHighlight sd h with
    | none => simpa [hm] using ht
    | some r =>
      simp only [hm]
      rw [getElem?_setRangeTag_out (hout h (List.mem_cons_self h hs) r hm)]
      exact ht

/-- C10: a highlight-application pass first clears the highlight state of
every rendered fragment span and only then re-tags the currently matched
ranges, so after a pass every span outside all matched ranges carries no
highlight tag, whatever tags earlier passes had left on it. -/
theorem C10_theorem (fragments : List (List Char)) (highlights : List HighlightData)
    (prevTags : List (Option HighlightTag)) (i : Nat) (hi : i < prevTags.length)
    (hout : ∀ h ∈ highlights, ∀ r,
      matchHighlight (buildSpanData fragments) h = some r → i < r.1 ∨ r.2 < i) :
    (applyHighlightsPass fragments highlights prevTags)[i]? = some none := by
  unfold applyHighlightsPass
  have hc := getElem?_clearTags prevTags i hi
  split_ifs with hf
  · exact hc
  · exact applyPass_fold_none (buildSpanData fragments) highlights i hout
      (clearTags prevTags) hc

theorem C10_witness :
    (applyHighlightsPass fragsTie [targetTie] prevTagsOld)[3]? = some none :=
  C10_theorem fragsTie [targetTie] prevTagsOld 3 (by decide)
    (by
      intro h hh r hm
      have hh2 : h = targetTie := by simpa using hh
      subst hh2
      have he : matchHighlight (buildSpanData fragsTie) targetTie = some (0, 1) := by decide
      rw [he] at hm
      have h2 := Option.some.inj hm
      rw [← h2]
      right
      decide)

theorem lexLt_asymm {a b : Nat × Nat} (h : lexLt a b) : ¬ lexLt b a := by
  unfold lexLt at h ⊢
  omega

theorem lexLt_ne {a b : Nat × Nat} (h : lexLt a b) : a ≠ b := by
  intro he
  subst he
  unfold lexLt at h
  omega

theorem pairwise_filterMap_of_rel {α β : Type} {R : α → α → Prop} {S : β → β → Prop}
    (f : α → Option β)
    (hf : ∀ a a2 b b2, f a = some b → f a2 = some b2 → R a a2 → S b b2) :
    ∀ {l : List α}, l.Pairwise R → (l.filterMap f).Pairwise S := by
  intro l hl
  induction hl with
  | nil => simp
  | cons hr hp ih =>
    rename_i a l2
    rw [List.filterMap_cons]
    cases hfa : f a with
    | none => exact ih
    | some b =>
      refine List.Pairwise.cons ?_ ih
      intro b2 hb2
      rw [List.mem_filterMap] at hb2
      obtain ⟨a2, ha2, hfa2⟩ := hb2
      exact hf a a2 b b2 hfa hfa2 (hr a2 ha2)

theorem fst_ge_of_mem_enumFrom {α : Type} :
    ∀ (l : List α) (n : Nat) (p : Nat × α), p ∈ l.enumFrom n → n ≤ p.1 := by
  intro l
  induction l with
  | nil =>
    intro n p hp
    exact absurd hp (List.not_mem_nil p)
  | cons a t ih =>
    intro n p hp
    rw [List.enumFrom_cons] at hp
    rcases List.mem_cons.mp hp with hpe | hp2
    · subst hpe
      exact Nat.le_refl n
    · exact Nat.le_of_succ_le (ih (n + 1) p hp2)

theorem pairwise_fst_lt_enumFrom {α : Type} (l : List α) :
    ∀ n, (l.enumFrom n).Pairwise (fun a b => a.1 < b.1) := by
  induction l with
  | nil => intro n; exact List.Pairwise.nil
  | cons a t ih =>
    intro n
    rw [List.enumFrom_cons]
    refine List.Pairwise.cons ?_ (ih (n + 1))
    intro p hp
    exact Nat.lt_of_succ_le (fst_ge_of_mem_enumFrom t (n + 1) p hp)

theorem pairwise_index_buildSpanData (fragments : List (List Char)) :
    (buildSpanData fragments).Pairwise (fun a b => a.index < b.index) := by
  unfold buildSpanData
  rw [List.pairwise_map]
  exact pairwise_fst_lt_enumFrom fragments 0

theorem pairwise_lt_findWordInSpans (w : List Char) (sd : List SpanData)
    (ai : Int) (bi : Option Nat) (hp : sd.Pairwise (fun a b => a.index < b.index)) :
    (findWordInSpans w sd ai bi).Pairwise (· < ·) := by
  unfold findWordInSpans
  refine pairwise_filterMap_of_rel _ ?_ hp
  intro a a2 b b2 hfa hfa2 hlt
  have h1 : b = a.index := by
    split_ifs at hfa
    exact (Option.some.inj hfa).symm
  have h2 : b2 = a2.index := by
    split_ifs at hfa2
    exact (Option.some.inj hfa2).symm
  rw [h1, h2]
  exact hlt

theorem mem_innerPairs {s : Nat} {ep : List Nat} {b : Nat × Nat}
    (hb : b ∈ ep.filterMap (fun e => if e > s ∧ e - s ≤ 500 then some (s, e) else none)) :
    b.1 = s ∧ b.2 ∈ ep := by
  rw [List.mem_filterMap] at hb
  obtain ⟨e, he, hif⟩ := hb
  by_cases hcond : e > s ∧ e - s ≤ 500
  · rw [if_pos hcond] at hif
    have h2 := Option.some.inj hif
    rw [← h2]
    exact ⟨rfl, he⟩
  · rw [if_neg hcond] at hif
    exact Option.noConfusion hif

theorem pairwise_lexLt_candidatePairs {sp ep : List Nat}
    (hs : sp.Pairwise (· < ·)) (he : ep.Pairwise (· < ·)) :
    (candidatePairs sp ep).Pairwise lexLt := by
  unfold candidatePairs
  induction sp with
  | nil => exact List.Pairwise.nil
  | cons s rest ih =>
    rw [List.flatMap_cons, List.pairwise_append]
    obtain ⟨hsr, hsp⟩ := List.pairwise_cons.mp hs
    refine ⟨?_, ih hsp, ?_⟩
    · refine pairwise_filterMap_of_rel _ ?_ he
      intro e e2 b b2 hfe hfe2 hlt
      have h1 : b = (s, e) := by
        by_cases hcond : e > s ∧ e - s ≤ 500
        · rw [if_pos hcond] at hfe
          exact (Option.some.inj hfe).symm
        · rw [if_neg hcond] at hfe
          exact Option.noConfusion hfe
      have h2 : b2 = (s, e2) := by
        by_cases hcond : e2 > s ∧ e2 - s ≤ 500
        · rw [if_pos hcond] at hfe2
          exact (Option.some.inj hfe2).symm
        · rw [if_neg hcond] at hfe2
          exact Option.noConfusion hfe2
      rw [h1, h2]
      exact Or.inr ⟨rfl, hlt⟩
    · intro a ha b hb
      have ha2 := mem_innerPairs ha
      rw [List.mem_flatMap] at hb
      obtain ⟨s2, hs2, hbin⟩ := hb
      have hb2 := mem_innerPairs hbin
      left
      rw [ha2.1, hb2.1]
      exact hsr s2 hs2

theorem pair_sublist_of_mem {α : Type} {l : List α} {a b : α}
    (ha : a ∈ l) (hb : b ∈ l) (hne : a ≠ b) :
    List.Sublist [a, b] l ∨ List.Sublist [b, a] l := by
  induction l with
  | nil => exact absurd ha (List.not_mem_nil a)
  | cons x t ih =>
    rcases List.mem_cons.mp ha with hax | ha2
    · subst hax
      rcases List.mem_cons.mp hb with hbx | hb2
      · exact absurd hbx.symm hne
      · exact Or.inl (List.Sublist.cons₂ a (List.singleton_sublist.mpr hb2))
    · rcases List.mem_cons.mp hb with hbx | hb2
      · subst hbx
        exact Or.inr (List.Sublist.cons₂ b (List.singleton_sublist.mpr ha2))
      · rcases ih ha2 hb2 with h | h
        · exact Or.inl (h.cons x)
        · exact Or.inr (h.cons x)

/-- C6: when several candidates surviving the word-coverage filter share the
smallest span length, the matcher selects the one with the earliest start
index and, among those, the earliest end index — the candidate list is
enumerated start-ascending then end-ascending, stably sorted by span length
ascending, filtered, and its first element taken. -/
theorem C6_theorem (fragments : List (List Char)) (h : HighlightData) (r c : Nat × Nat)
    (hm : matchHighlight (buildSpanData fragments) h = some r)
    (hc : c ∈ survivorsOf (buildSpanData fragments) h)
    (hlen : spanLen c = spanLen r) :
    r.1 ≤ c.1 ∧ (r.1 = c.1 → r.2 ≤ c.2) := by
  have hpsd := pairwise_index_buildSpanData fragments
  have hps : (startPositionsOf (buildSpanData fragments) h).Pairwise (· < ·) :=
    pairwise_lt_findWordInSpans _ _ _ _ hpsd
  have hpe : (endPositionsOf (buildSpanData fragments) h).Pairwise (· < ·) :=
    pairwise_lt_findWordInSpans _ _ _ _ hpsd
  have hplex : (candidatePairs (startPositionsOf (buildSpanData fragments) h)
      (endPositionsOf (buildSpanData fragments) h)).Pairwise lexLt :=
    pairwise_lexLt_candidatePairs hps hpe
  have hrs := mem_survivors_of_match hm
  have hrc := (mem_survivors_iff.mp hrs).1
  have hcc := (mem_survivors_iff.mp hc).1
  have hprc := (mem_survivors_iff.mp hrs).2
  have hpcc := (mem_survivors_iff.mp hc).2
  by_cases hne : c = r
  · subst hne
    exact ⟨Nat.le_refl _, fun _ => Nat.le_refl _⟩
  · have hnotlt : ¬ lexLt c r := by
      intro hlt
      have hsub : List.Sublist [c, r] (candidatePairs
          (startPositionsOf (buildSpanData fragments) h)
          (endPositionsOf (buildSpanData fragments) h)) := by
        rcases pair_sublist_of_mem hcc hrc hne with h1 | h1
        · exact h1
        · have hp2 := List.Pairwise.sublist h1 hplex
          have hrlt : lexLt r c := (List.pairwise_cons.mp hp2).1 c (by simp)
          exact absurd hrlt (lexLt_asymm hlt)
      have hle : lenLe c r := by
        unfold lenLe
        omega
      have hsorted : List.Sublist [c, r] (sortedCandidatesOf (buildSpanData fragments) h) :=
        List.pair_sublist_insertionSort hle hsub
      have hfil := List.Sublist.filter
        (coversAllWords (buildSpanData fragments) (uniqueWordsOf (highlightWordsOf h))) hsorted
      have hfeq : List.filter
          (coversAllWords (buildSpanData fragments) (uniqueWordsOf (highlightWordsOf h)))
          [c, r] = [c, r] := by
        simp [hpcc, hprc]
      rw [hfeq] at hfil
      have hsurv : List.Sublist [c, r] (survivorsOf (buildSpanData fragments) h) := hfil
      have hndc : (candidatePairs (startPositionsOf (buildSpanData fragments) h)
          (endPositionsOf (buildSpanData fragments) h)).Nodup :=
        List.Pairwise.imp (fun hab => lexLt_ne hab) hplex
      have hnds : (sortedCandidatesOf (buildSpanData fragments) h).Nodup := by
        unfold sortedCandidatesOf
        exact ((List.perm_insertionSort lenLe _).nodup_iff).mpr hndc
      have hnd : (survivorsOf (buildSpanData fragments) h).Nodup :=
        List.Nodup.sublist (List.filter_sublist _) hnds
      have hh := head?_survivors_of_match hm
      cases hsv : survivorsOf (buildSpanData fragments) h with
      | nil =>
        rw [hsv] at hh
        exact Option.noConfusion hh
      | cons x t =>
        rw [hsv] at hh hsurv hnd
        have hx : x = r := Option.some.inj (by simpa using hh)
        rw [hx] at hsurv hnd
        cases hsurv with
        | cons _ h2 =>
          have hrt : r ∈ t := List.Sublist.subset h2 (by simp)
          exact absurd hrt (List.nodup_cons.mp hnd).1
        | cons₂ _ h2 =>
          exact absurd rfl hne
    rcases pair_sublist_of_mem hcc hrc hne with h1 | h1
    · have hp2 := List.Pairwise.sublist h1 hplex
      have hclt : lexLt c r := (List.pairwise_cons.mp hp2).1 r (by simp)
      exact absurd hclt hnotlt
    · have hp2 := List.Pairwise.sublist h1 hplex
      have hrlt : lexLt r c := (List.pairwise_cons.mp hp2).1 c (by simp)
      unfold lexLt at hrlt
      rcases hrlt with h2 | ⟨h2, h3⟩
      · exact ⟨Nat.le_of_lt h2, fun he => absurd he (Nat.ne_of_lt h2)⟩
      · exact ⟨Nat.le_of_eq h2, fun _ => Nat.le_of_lt h3⟩

theorem C6_witness :
    matchHighlight (buildSpanData fragsTie) targetTie = some (0, 1) ∧
      (2, 3) ∈ survivorsOf (buildSpanData fragsTie) targetTie ∧
      spanLen (2, 3) = spanLen ((0 : Nat), (1 : Nat)) ∧
      (0 ≤ 2 ∧ ((0 : Nat) = 2 → 1 ≤ 3)) :=
  ⟨by decide, by decide, by decide,
    C6_theorem fragsTie targetTie (0, 1) (2, 3) (by decide) (by decide) (by decide)⟩
